import Mathlib

/-!
# Shallow embedding of the snarkOS shared consensus state store and node lifecycle

This file embeds, in Lean 4, the two Rust source files of the repository:

* `node/narwhal/src/shared.rs` — the `Shared<N>` consensus state store:
  committee membership and stake, quorum/availability threshold arithmetic,
  per-round sealed batches with their certificates, and the bidirectional
  peer-IP ↔ validator-address mapping.
* `src/node.rs` — the node lifecycle: the `Status` enumeration, the atomic
  status byte, `status()`, `set_status()` and `shut_down()`.

Rust `HashMap`s are embedded as association lists with unique keys (the
operations mirror `HashMap::get` / `insert` / `remove` / `contains_key` /
`len` semantics).  Machine integers (`u64`) are embedded as `Nat` with the
saturation points of the source (`saturating_mul`, `saturating_add`,
`checked_add`) made explicit against `U64_MAX`; none of the remaining
operations in the source can overflow (this is noted where relevant).
`Result<T>` is embedded as `Except String T`, carrying the exact `bail!`
message of the source.  Stateful methods are embedded as explicit
state-passing functions.
-/

set_option autoImplicit false

namespace SnarkOS

/-- The maximum value of a Rust `u64`. -/
def U64_MAX : Nat := 2 ^ 64 - 1

/-- Rust `u64::checked_add`: `some` of the sum when it is representable,
`none` on overflow. -/
def checkedAdd (a b : Nat) : Option Nat :=
  if a + b ≤ U64_MAX then some (a + b) else none

/-- Rust `u64::saturating_mul(2)` specialised: clamp the doubled value at
`U64_MAX` instead of wrapping. -/
def saturatingMul2 (a : Nat) : Nat :=
  min (a * 2) U64_MAX

/-- Rust `u64::saturating_add(2)` specialised: clamp the sum at `U64_MAX`
instead of wrapping. -/
def saturatingAdd2 (a : Nat) : Nat :=
  min (a + 2) U64_MAX

/-! ## Association maps

`HashMap` from the Rust standard library is embedded as a `List (κ × α)`
whose keys are unique.  `mapFind?` is `HashMap::get`, `mapContains` is
`contains_key`, `mapInsert` is `insert` (replacing the value when the key is
already present), `mapErase` is `remove`.  Iteration over `values()` is
`List.map Prod.snd`; the iteration order of a `HashMap` is unspecified, so
any fact about iteration below is order-insensitive or about all orders at
once. -/

/-- Embeds `HashMap::get`. -/
def mapFind? {κ α : Type} [DecidableEq κ] : List (κ × α) → κ → Option α
  | [], _ => none
  | (k, v) :: rest, key => if k = key then some v else mapFind? rest key

/-- Embeds `HashMap::contains_key`. -/
def mapContains {κ α : Type} [DecidableEq κ] (m : List (κ × α)) (k : κ) : Bool :=
  (mapFind? m k).isSome

/-- Embeds `HashMap::insert` (replaces the value when the key is present). -/
def mapInsert {κ α : Type} [DecidableEq κ] : List (κ × α) → κ → α → List (κ × α)
  | [], k, v => [(k, v)]
  | (k', v') :: rest, k, v =>
      if k' = k then (k, v) :: rest else (k', v') :: mapInsert rest k v

/-- Embeds `HashMap::remove`, discarding the returned value. -/
def mapErase {κ α : Type} [DecidableEq κ] : List (κ × α) → κ → List (κ × α)
  | [], _ => []
  | (k', v') :: rest, k => if k' = k then rest else (k', v') :: mapErase rest k

/-- The keys of the map are pairwise distinct: the intrinsic `HashMap`
invariant. -/
def keysNodup {κ α : Type} (m : List (κ × α)) : Prop :=
  (m.map Prod.fst).Nodup

section MapLemmas

variable {κ α : Type} [DecidableEq κ]

theorem mapFind?_eq_none_of_not_mem (m : List (κ × α)) (k : κ)
    (h : k ∉ m.map Prod.fst) : mapFind? m k = none := by
  induction m with
  | nil => rfl
  | cons p rest ih =>
      obtain ⟨k', v'⟩ := p
      simp only [List.map_cons, List.mem_cons] at h
      push_neg at h
      have hne : ¬ k' = k := fun hk => h.1 hk.symm
      simp only [mapFind?, if_neg hne]
      exact ih h.2

theorem mapFind?_insert_self (m : List (κ × α)) (k : κ) (v : α) :
    mapFind? (mapInsert m k v) k = some v := by
  induction m with
  | nil => simp [mapInsert, mapFind?]
  | cons p rest ih =>
      obtain ⟨k', v'⟩ := p
      by_cases hk : k' = k
      · subst hk
        simp [mapInsert, mapFind?]
      · simp only [mapInsert, if_neg hk, mapFind?, if_neg hk]
        exact ih

theorem mapFind?_insert_ne (m : List (κ × α)) (k k' : κ) (v : α) (hne : k' ≠ k) :
    mapFind? (mapInsert m k v) k' = mapFind? m k' := by
  induction m with
  | nil =>
      have h0 : ¬ k = k' := fun h => hne h.symm
      simp only [mapInsert, mapFind?, if_neg h0]
  | cons p rest ih =>
      obtain ⟨k₀, v₀⟩ := p
      by_cases hk : k₀ = k
      · subst hk
        have h0 : ¬ k₀ = k' := fun h => hne h.symm
        simp only [mapInsert, if_pos rfl, mapFind?, if_neg h0]
      · simp only [mapInsert, if_neg hk, mapFind?]
        by_cases hk' : k₀ = k'
        · simp only [if_pos hk']
        · simp only [if_neg hk', ih]

theorem mapFind?_erase_ne (m : List (κ × α)) (k k' : κ) (hne : k' ≠ k) :
    mapFind? (mapErase m k) k' = mapFind? m k' := by
  induction m with
  | nil => rfl
  | cons p rest ih =>
      obtain ⟨k₀, v₀⟩ := p
      by_cases hk : k₀ = k
      · subst hk
        have h0 : ¬ k₀ = k' := fun h => hne h.symm
        simp [mapErase, mapFind?, h0]
      · simp only [mapErase, if_neg hk, mapFind?]
        by_cases hk' : k₀ = k'
        · simp only [if_pos hk']
        · simp only [if_neg hk', ih]

theorem mapFind?_erase_self (m : List (κ × α)) (k : κ) (h : keysNodup m) :
    mapFind? (mapErase m k) k = none := by
  induction m with
  | nil => rfl
  | cons p rest ih =>
      obtain ⟨k₀, v₀⟩ := p
      simp only [keysNodup, List.map_cons, List.nodup_cons] at h
      by_cases hk : k₀ = k
      · subst hk
        simp only [mapErase, if_pos rfl]
        exact mapFind?_eq_none_of_not_mem rest k₀ h.1
      · simp only [mapErase, if_neg hk, mapFind?, if_neg hk]
        exact ih h.2

theorem keys_insert_subset (m : List (κ × α)) (k : κ) (v : α) :
    ∀ x, x ∈ (mapInsert m k v).map Prod.fst → x = k ∨ x ∈ m.map Prod.fst := by
  induction m with
  | nil =>
      intro x hx
      simp only [mapInsert, List.map_cons, List.map_nil, List.mem_singleton] at hx
      exact Or.inl hx
  | cons p rest ih =>
      obtain ⟨k₀, v₀⟩ := p
      intro x hx
      by_cases hk : k₀ = k
      · subst hk
        have hred : mapInsert ((k₀, v₀) :: rest) k₀ v = (k₀, v) :: rest := by
          simp [mapInsert]
        rw [hred] at hx
        simp only [List.map_cons, List.mem_cons] at hx
        simp only [List.map_cons, List.mem_cons]
        tauto
      · simp only [mapInsert, if_neg hk, List.map_cons, List.mem_cons] at hx
        simp only [List.map_cons, List.mem_cons]
        rcases hx with hx | hx
        · exact Or.inr (Or.inl hx)
        · rcases ih x hx with h | h
          · exact Or.inl h
          · exact Or.inr (Or.inr h)

theorem keysNodup_insert (m : List (κ × α)) (k : κ) (v : α) (h : keysNodup m) :
    keysNodup (mapInsert m k v) := by
  induction m with
  | nil => simp [mapInsert, keysNodup]
  | cons p rest ih =>
      obtain ⟨k₀, v₀⟩ := p
      simp only [keysNodup, List.map_cons, List.nodup_cons] at h
      by_cases hk : k₀ = k
      · subst hk
        have hred : mapInsert ((k₀, v₀) :: rest) k₀ v = (k₀, v) :: rest := by
          simp [mapInsert]
        rw [hred]
        simp only [keysNodup, List.map_cons, List.nodup_cons]
        exact h
      · have hrest := ih h.2
        simp only [mapInsert, if_neg hk, keysNodup, List.map_cons, List.nodup_cons]
        refine ⟨fun hmem => ?_, hrest⟩
        rcases keys_insert_subset rest k v k₀ hmem with h' | h'
        · exact hk h'
        · exact h.1 h'

theorem keys_erase_subset (m : List (κ × α)) (k : κ) :
    ∀ x, x ∈ (mapErase m k).map Prod.fst → x ∈ m.map Prod.fst := by
  induction m with
  | nil => simp [mapErase]
  | cons p rest ih =>
      obtain ⟨k₀, v₀⟩ := p
      intro x hx
      by_cases hk : k₀ = k
      · subst hk
        simp only [mapErase, if_pos rfl] at hx
        simp only [List.map_cons, List.mem_cons]
        exact Or.inr hx
      · simp only [mapErase, if_neg hk, List.map_cons, List.mem_cons] at hx
        simp only [List.map_cons, List.mem_cons]
        rcases hx with hx | hx
        · exact Or.inl hx
        · exact Or.inr (ih x hx)

theorem keysNodup_erase (m : List (κ × α)) (k : κ) (h : keysNodup m) :
    keysNodup (mapErase m k) := by
  induction m with
  | nil => simpa [mapErase] using h
  | cons p rest ih =>
      obtain ⟨k₀, v₀⟩ := p
      simp only [keysNodup, List.map_cons, List.nodup_cons] at h
      by_cases hk : k₀ = k
      · subst hk
        simp only [mapErase, if_pos rfl]
        exact h.2
      · simp only [mapErase, if_neg hk, keysNodup, List.map_cons, List.nodup_cons]
        exact ⟨fun hmem => h.1 (keys_erase_subset rest k k₀ hmem), ih h.2⟩

end MapLemmas

/-! ## The committee (`shared.rs`)

`Shared::committee` is a `HashMap<Address<N>, u64>`.  Validator addresses
are opaque fixed-size values; they are embedded as `Nat` (only decidable
equality of addresses is used by the source).  A committee is the embedded
map from address to stake. -/

/-- Opaque validator address (`Address<N>`). -/
abbrev Address : Type := Nat

/-- Opaque peer network address (`std::net::SocketAddr`). -/
abbrev SocketAddr : Type := Nat

/-- The committee map: `address` to `stake` (`HashMap<Address<N>, u64>`). -/
abbrev Committee : Type := List (Address × Nat)

/-- Embeds `Shared::committee_size`: `self.committee.read().len()`. -/
def committee_size (c : Committee) : Nat :=
  c.length

/-- Embeds `Shared::is_committee_member`: `self.committee.read().contains_key(address)`. -/
def is_committee_member (c : Committee) (address : Address) : Bool :=
  mapContains c address

/-- Embeds `Shared::add_validator`, embedded with explicit state passing: the first
component is the returned `Result<()>`, the second is the committee after
the call.  Bails with the source's message when the address is already a
member; otherwise inserts `(address, stake)`. -/
def add_validator (c : Committee) (address : Address) (stake : Nat) :
    Except String Unit × Committee :=
  if is_committee_member c address then
    (Except.error "Validator already in committee", c)
  else
    (Except.ok (), mapInsert c address stake)

/-- The accumulation loop of `Shared::total_stake`: starting from `power`,
fold `checked_add` over the remaining stake values, bailing on overflow
with the source's message. -/
def total_stake_loop : Nat → List Nat → Except String Nat
  | power, [] => Except.ok power
  | power, stake :: rest =>
      match checkedAdd power stake with
      | some p => total_stake_loop p rest
      | none => Except.error "Failed to calculate total stake - overflow detected"

/-- Embeds `Shared::total_stake`: sums all stake values of the committee with
`checked_add`, starting from `0u64`. -/
def total_stake (c : Committee) : Except String Nat :=
  total_stake_loop 0 (c.map Prod.snd)

/-- Embeds `Shared::quorum_threshold`:
`Ok(self.total_stake()?.saturating_mul(2) / 3 + 1)`, with the `?` operator
written as an explicit `match`.  The final `/ 3 + 1` cannot overflow a
`u64` (its value is at most `U64_MAX / 3 + 1`), so it is embedded as plain
`Nat` arithmetic. -/
def quorum_threshold (c : Committee) : Except String Nat :=
  match total_stake c with
  | Except.ok s => Except.ok (saturatingMul2 s / 3 + 1)
  | Except.error e => Except.error e

/-- Embeds `Shared::availability_threshold`:
`Ok(self.total_stake()?.saturating_add(2) / 3)`, with the `?` operator
written as an explicit `match`.  The final `/ 3` cannot overflow. -/
def availability_threshold (c : Committee) : Except String Nat :=
  match total_stake c with
  | Except.ok s => Except.ok (saturatingAdd2 s / 3)
  | Except.error e => Except.error e

/-! ## Sealed batches and previous certificates (`shared.rs`) -/

/-- Opaque batch certificate (`BatchCertificate<N>`). -/
abbrev BatchCertificate : Type := Nat

/-- A sealed batch (`SealedBatch<N>`): an opaque payload together with its
certificate, of which the source only uses the `certificate()` accessor. -/
structure SealedBatch where
  payload : Nat
  certificate : BatchCertificate
deriving DecidableEq

/-- The sealed-batches map of `Shared`: `round` number to a map of
`address` to `sealed batch`. -/
abbrev SealedBatches : Type := List (Nat × List (Address × SealedBatch))

/-- Embeds `Shared::sealed_batches(round)`:
`self.sealed_batches.read().get(&round).cloned()`. -/
def sealed_batches (sb : SealedBatches) (round : Nat) :
    Option (List (Address × SealedBatch)) :=
  mapFind? sb round

/-- Embeds `Shared::previous_certificates(round)`: `None` at the genesis round;
otherwise look up round `round - 1` and collect `batch.certificate()` over
the values of the inner map. -/
def previous_certificates (sb : SealedBatches) (round : Nat) :
    Option (List BatchCertificate) :=
  if round = 0 then none
  else
    match mapFind? sb (round - 1) with
    | none => none
    | some batches => some (batches.map (fun b => b.2.certificate))

/-! ## The peer ↔ address maps (`shared.rs`)

`Shared` keeps `peer_addresses : HashMap<SocketAddr, Address>` and
`address_peers : HashMap<Address, SocketAddr>`. -/

/-- The two directional peer maps of `Shared`. -/
structure PeerState where
  peer_addresses : List (SocketAddr × Address)
  address_peers : List (Address × SocketAddr)
deriving DecidableEq

/-- The peer maps of a freshly constructed `Shared` (`Default::default()`). -/
def PeerState.empty : PeerState :=
  ⟨[], []⟩

/-- Embeds `Shared::get_peer_ip(address)`: `self.address_peers.read().get(address)`. -/
def get_peer_ip (s : PeerState) (address : Address) : Option SocketAddr :=
  mapFind? s.address_peers address

/-- Embeds `Shared::get_address(peer_ip)`: `self.peer_addresses.read().get(peer_ip)`. -/
def get_address (s : PeerState) (peer_ip : SocketAddr) : Option Address :=
  mapFind? s.peer_addresses peer_ip

/-- Embeds `Shared::insert_peer(peer_ip, address)`: insert into both directional
maps (last-write-wins on either key, exactly as `HashMap::insert`). -/
def insert_peer (s : PeerState) (peer_ip : SocketAddr) (address : Address) :
    PeerState :=
  ⟨mapInsert s.peer_addresses peer_ip address,
   mapInsert s.address_peers address peer_ip⟩

/-- Embeds `Shared::remove_peer(peer_ip)`: remove the forward entry and, when it
was present, the corresponding reverse entry. -/
def remove_peer (s : PeerState) (peer_ip : SocketAddr) : PeerState :=
  match mapFind? s.peer_addresses peer_ip with
  | some address =>
      ⟨mapErase s.peer_addresses peer_ip, mapErase s.address_peers address⟩
  | none => s

/-- The states of the peer maps reachable from the empty maps by
`insert_peer` and `remove_peer`. -/
inductive PeerReachable : PeerState → Prop
  | empty : PeerReachable PeerState.empty
  | insert (s : PeerState) (ip : SocketAddr) (a : Address) :
      PeerReachable s → PeerReachable (insert_peer s ip a)
  | remove (s : PeerState) (ip : SocketAddr) :
      PeerReachable s → PeerReachable (remove_peer s ip)

/-- Mutual consistency of the two peer maps: `peer_addresses[ip] == addr`
exactly when `address_peers[addr] == ip`. -/
def Consistent (s : PeerState) : Prop :=
  ∀ ip a, get_address s ip = some a ↔ get_peer_ip s a = some ip

/-- Both peer maps satisfy the intrinsic `HashMap` key-uniqueness
invariant. -/
def PeerWF (s : PeerState) : Prop :=
  keysNodup s.peer_addresses ∧ keysNodup s.address_peers

/-! ## The node lifecycle (`src/node.rs`) -/

/-- The `Status` enumeration, `#[repr(u8)]` with discriminants 0..3. -/
inductive Status
  | Idle
  | Mining
  | Syncing
  | ShuttingDown
deriving DecidableEq

/-- Embeds `state as u8`: the discriminant of a `Status` value. -/
def Status.toByte : Status → Nat
  | .Idle => 0
  | .Mining => 1
  | .Syncing => 2
  | .ShuttingDown => 3

/-- The lifecycle-relevant state of `Node`: the atomic status byte. -/
structure NodeState where
  statusByte : Nat
deriving DecidableEq

/-- Embeds `Node::new`: `status: Arc::new(AtomicU8::new(0))`. -/
def NodeState.new : NodeState :=
  ⟨0⟩

/-- The decoder inside `Node::status`: the `match` over the loaded byte,
whose default arm is `unreachable!("Invalid status code")` — embedded as
`none`. -/
def decodeStatus : Nat → Option Status
  | 0 => some .Idle
  | 1 => some .Mining
  | 2 => some .Syncing
  | 3 => some .ShuttingDown
  | _ => none

/-- Embeds `Node::status`: load the status byte and decode it. -/
def NodeState.status (n : NodeState) : Option Status :=
  decodeStatus n.statusByte

/-- Embeds `Node::set_status`: `self.status.store(state as u8, SeqCst)`; the
`ShuttingDown` arm additionally flushes the task registry, which does not
touch the status byte. -/
def set_status (_n : NodeState) (state : Status) : NodeState :=
  ⟨state.toByte⟩

/-- Embeds `Node::shut_down`: `self.set_status(Status::ShuttingDown)`. -/
def shut_down (n : NodeState) : NodeState :=
  set_status n .ShuttingDown

/-- The node states reachable from `Node::new` by `set_status` calls
(`shut_down` is one of them). -/
inductive NodeReachable : NodeState → Prop
  | new : NodeReachable NodeState.new
  | step (n : NodeState) (s : Status) :
      NodeReachable n → NodeReachable (set_status n s)

/-! ## Characterisation of `total_stake` -/

/-- The accumulation loop of `total_stake` returns the exact sum of the
accumulator and the remaining stakes when that sum is representable in a
`u64`, and the overflow error otherwise. -/
theorem total_stake_loop_spec (l : List Nat) (power : Nat) (hp : power ≤ U64_MAX) :
    total_stake_loop power l =
      if power + l.sum ≤ U64_MAX then Except.ok (power + l.sum)
      else Except.error "Failed to calculate total stake - overflow detected" := by
  induction l generalizing power with
  | nil => simp [total_stake_loop, hp]
  | cons s rest ih =>
      by_cases h : power + s ≤ U64_MAX
      · simp only [total_stake_loop, checkedAdd, if_pos h]
        rw [ih (power + s) h, List.sum_cons, ← Nat.add_assoc]
      · simp only [total_stake_loop, checkedAdd, if_neg h]
        rw [List.sum_cons, if_neg (by omega)]

/-- Embeds `total_stake` returns the exact sum of all stakes when it is
representable in a `u64`, and the overflow error otherwise. -/
theorem total_stake_spec (c : Committee) :
    total_stake c =
      if (c.map Prod.snd).sum ≤ U64_MAX then Except.ok ((c.map Prod.snd).sum)
      else Except.error "Failed to calculate total stake - overflow detected" := by
  simpa using total_stake_loop_spec (c.map Prod.snd) 0 (Nat.zero_le _)

/-- If `total_stake` succeeds with `S`, then `S` is the sum of all stakes
and fits in a `u64`. -/
theorem total_stake_ok_bound (c : Committee) (S : Nat)
    (h : total_stake c = Except.ok S) :
    S = (c.map Prod.snd).sum ∧ S ≤ U64_MAX := by
  rw [total_stake_spec] at h
  by_cases hle : (c.map Prod.snd).sum ≤ U64_MAX
  · rw [if_pos hle] at h
    cases h
    exact ⟨rfl, hle⟩
  · rw [if_neg hle] at h
    cases h

/-! ## Claim theorems -/

/-- Claim C6: `total_stake()` fails (with the stake-overflow error) exactly
when the sum of all stake values in the committee exceeds `U64_MAX`;
otherwise it succeeds and returns the exact sum of all stakes, in
particular `0` for the empty committee.  (The embedding is a pure function
of the committee, so the committee itself is untouched by construction.) -/
theorem total_stake_spec_iff (c : Committee) :
    (total_stake c = Except.error "Failed to calculate total stake - overflow detected"
        ↔ U64_MAX < (c.map Prod.snd).sum)
    ∧ ((c.map Prod.snd).sum ≤ U64_MAX →
        total_stake c = Except.ok ((c.map Prod.snd).sum))
    ∧ total_stake ([] : Committee) = Except.ok 0 := by
  refine ⟨?_, ?_, rfl⟩
  · rw [total_stake_spec]
    by_cases hle : (c.map Prod.snd).sum ≤ U64_MAX
    · rw [if_pos hle]
      constructor
      · intro h
        cases h
      · intro h
        omega
    · rw [if_neg hle]
      constructor
      · intro _
        omega
      · intro _
        rfl
  · intro hle
    rw [total_stake_spec, if_pos hle]

/-- Witness for claim C6 at concrete committees: an in-range committee sums
exactly, and a committee whose stakes sum past `U64_MAX` fails. -/
theorem total_stake_spec_iff_witness :
    total_stake [(0, 10), (1, 20)] = Except.ok 30
    ∧ total_stake [(0, U64_MAX), (1, 1)] =
        Except.error "Failed to calculate total stake - overflow detected" :=
  ⟨(total_stake_spec_iff [(0, 10), (1, 20)]).2.1 (by decide),
   (total_stake_spec_iff [(0, U64_MAX), (1, 1)]).1.mpr (by decide)⟩

/-- Claim C1: Whenever `total_stake()` succeeds with value `S`,
`quorum_threshold()` succeeds and returns `floor(S * 2 / 3) + 1` with the
doubling clamped at `U64_MAX`; on the committee with stakes
`{10, 10, 10, 1}` it returns `21`; and whenever `total_stake()` fails,
`quorum_threshold()` fails (with the same error). -/
theorem quorum_threshold_spec :
    (∀ (c : Committee) (S : Nat), total_stake c = Except.ok S →
        quorum_threshold c = Except.ok (min (S * 2) U64_MAX / 3 + 1))
    ∧ (∀ (c : Committee) (e : String), total_stake c = Except.error e →
        quorum_threshold c = Except.error e)
    ∧ quorum_threshold [(0, 10), (1, 10), (2, 10), (3, 1)] = Except.ok 21 := by
  refine ⟨?_, ?_, by rfl⟩
  · intro c S h
    simp [quorum_threshold, h, saturatingMul2]
  · intro c e h
    simp [quorum_threshold, h]

/-- Witness for claim C1 at concrete committees: a singleton committee of
stake `5`, and an overflowing committee whose failure propagates. -/
theorem quorum_threshold_spec_witness :
    quorum_threshold [(0, 5)] = Except.ok (min (5 * 2) U64_MAX / 3 + 1)
    ∧ quorum_threshold [(0, U64_MAX), (1, 1)] =
        Except.error "Failed to calculate total stake - overflow detected" :=
  ⟨quorum_threshold_spec.1 [(0, 5)] 5 (by rfl),
   quorum_threshold_spec.2.1 [(0, U64_MAX), (1, 1)] _ (by rfl)⟩

/-- Claim C2: Whenever `total_stake()` succeeds with value `S`,
`availability_threshold()` succeeds and returns `floor((S + 2) / 3)` with
the addition clamped at `U64_MAX`; on the committee with stakes
`{10, 10, 10, 1}` it returns `11`; and whenever `total_stake()` fails,
`availability_threshold()` fails (with the same error). -/
theorem availability_threshold_spec :
    (∀ (c : Committee) (S : Nat), total_stake c = Except.ok S →
        availability_threshold c = Except.ok (min (S + 2) U64_MAX / 3))
    ∧ (∀ (c : Committee) (e : String), total_stake c = Except.error e →
        availability_threshold c = Except.error e)
    ∧ availability_threshold [(0, 10), (1, 10), (2, 10), (3, 1)] =
        Except.ok 11 := by
  refine ⟨?_, ?_, by rfl⟩
  · intro c S h
    simp [availability_threshold, h, saturatingAdd2]
  · intro c e h
    simp [availability_threshold, h]

/-- Witness for claim C2 at concrete committees: a singleton committee of
stake `5`, and an overflowing committee whose failure propagates. -/
theorem availability_threshold_spec_witness :
    availability_threshold [(0, 5)] = Except.ok (min (5 + 2) U64_MAX / 3)
    ∧ availability_threshold [(0, U64_MAX), (1, 1)] =
        Except.error "Failed to calculate total stake - overflow detected" :=
  ⟨availability_threshold_spec.1 [(0, 5)] 5 (by rfl),
   availability_threshold_spec.2.1 [(0, U64_MAX), (1, 1)] _ (by rfl)⟩

/-- Claim C3: For every committee on which `total_stake()` succeeds with
value `S`, the two thresholds satisfy
`quorum_threshold() + availability_threshold() - 1 ≤ S`, and both are at
least `1` whenever `S ≥ 1`.  The saturated regime near `U64_MAX` is
covered: `total_stake`'s success bounds `S` by `U64_MAX`. -/
theorem threshold_bounds (c : Committee) (S qt av : Nat)
    (hS : total_stake c = Except.ok S)
    (hq : quorum_threshold c = Except.ok qt)
    (ha : availability_threshold c = Except.ok av) :
    qt + av - 1 ≤ S ∧ (1 ≤ S → 1 ≤ qt ∧ 1 ≤ av) := by
  have hle : S ≤ U64_MAX := (total_stake_ok_bound c S hS).2
  rw [quorum_threshold, hS] at hq
  rw [availability_threshold, hS] at ha
  simp only [Except.ok.injEq] at hq ha
  subst hq
  subst ha
  have hM : U64_MAX = 18446744073709551615 := by norm_num [U64_MAX]
  simp only [saturatingMul2, saturatingAdd2, hM]
  rw [hM] at hle
  rcases Nat.le_total (S * 2) 18446744073709551615 with h2 | h2
  · rw [Nat.min_eq_left h2]
    rcases Nat.le_total (S + 2) 18446744073709551615 with h3 | h3
    · rw [Nat.min_eq_left h3]
      omega
    · rw [Nat.min_eq_right h3]
      omega
  · rw [Nat.min_eq_right h2]
    rcases Nat.le_total (S + 2) 18446744073709551615 with h3 | h3
    · rw [Nat.min_eq_left h3]
      omega
    · rw [Nat.min_eq_right h3]
      omega

/-- Witness for claim C3 at the example committee with stakes
`{10, 10, 10, 1}`: `S = 31`, `quorum = 21`, `availability = 11`. -/
theorem threshold_bounds_witness :
    21 + 11 - 1 ≤ 31 ∧ (1 ≤ 31 → 1 ≤ 21 ∧ 1 ≤ 11) :=
  threshold_bounds [(0, 10), (1, 10), (2, 10), (3, 1)] 31 21 11
    (by rfl) (by rfl) (by rfl)

/-- Claim C5: `previous_certificates(0)` returns nothing for every store
state; for `r > 0` it returns nothing when no sealed batches are recorded
for round `r - 1`, and otherwise returns exactly the certificates
extracted from the sealed batches recorded for round `r - 1`, one per
recorded validator. -/
theorem previous_certificates_spec (sb : SealedBatches) (r : Nat) :
    previous_certificates sb 0 = none
    ∧ (0 < r → mapFind? sb (r - 1) = none → previous_certificates sb r = none)
    ∧ (∀ batches, 0 < r → mapFind? sb (r - 1) = some batches →
        previous_certificates sb r =
          some (batches.map (fun b => b.2.certificate))) := by
  refine ⟨rfl, ?_, ?_⟩
  · intro hr hnone
    simp [previous_certificates, Nat.pos_iff_ne_zero.mp hr, hnone]
  · intro batches hr hsome
    simp [previous_certificates, Nat.pos_iff_ne_zero.mp hr, hsome]

/-- Witness for claim C5 at a concrete store: round `2` has no predecessor
batches, round `1` has one sealed batch recorded at round `0`. -/
theorem previous_certificates_spec_witness :
    previous_certificates [(0, [(7, ⟨100, 42⟩)])] 2 = none
    ∧ previous_certificates [(0, [(7, ⟨100, 42⟩)])] 1 = some [42] :=
  ⟨(previous_certificates_spec [(0, [(7, ⟨100, 42⟩)])] 2).2.1 (by decide) (by rfl),
   (previous_certificates_spec [(0, [(7, ⟨100, 42⟩)])] 1).2.2
      [(7, ⟨100, 42⟩)] (by decide) (by rfl)⟩

/-- Claim C7: `add_validator(address, stake)` fails with the
duplicate-validator error exactly when `address` is already a committee
member; on that failure the committee (hence its size) is unchanged; and
when `address` is not yet a member it succeeds and inserts
`(address, stake)`. -/
theorem add_validator_spec (c : Committee) (a : Address) (stake : Nat) :
    ((add_validator c a stake).1 =
        Except.error "Validator already in committee"
      ↔ is_committee_member c a = true)
    ∧ (is_committee_member c a = true →
        (add_validator c a stake).2 = c
        ∧ committee_size (add_validator c a stake).2 = committee_size c)
    ∧ (is_committee_member c a = false →
        add_validator c a stake = (Except.ok (), mapInsert c a stake)) := by
  by_cases h : is_committee_member c a = true
  · refine ⟨?_, ?_, ?_⟩
    · simp [add_validator, h]
    · intro _
      simp [add_validator, h]
    · intro h'
      rw [h] at h'
      cases h'
  · have h' : is_committee_member c a = false := by
      revert h
      cases is_committee_member c a <;> simp
    refine ⟨?_, ?_, ?_⟩
    · simp [add_validator, h']
    · intro hmem
      rw [h'] at hmem
      cases hmem
    · intro _
      simp [add_validator, h']

/-- Witness for claim C7 at a concrete committee `[(1, 5)]`: adding the
member `1` fails leaving the committee intact, adding the fresh address
`2` inserts it. -/
theorem add_validator_spec_witness :
    ((add_validator [(1, 5)] 1 9).2 = [(1, 5)]
      ∧ committee_size (add_validator [(1, 5)] 1 9).2 = committee_size [(1, 5)])
    ∧ add_validator [(1, 5)] 2 9 = (Except.ok (), mapInsert [(1, 5)] 2 9) :=
  ⟨(add_validator_spec [(1, 5)] 1 9).2.1 (by decide),
   (add_validator_spec [(1, 5)] 2 9).2.2 (by decide)⟩

/-! ## Peer-map invariant preservation

`insert_peer` preserves the bidirectional invariant only when neither the
peer IP nor the address is currently mapped; `remove_peer` always
preserves it.  An insert colliding with an existing entry on either side
leaves a dangling reverse entry (the last-write-wins behaviour of
`HashMap::insert`), which is why the unrestricted reachability claim
fails. -/

/-- The peer-map states reachable from the empty maps when every
`insert_peer(ip, address)` happens with `ip` and `address` both currently
unmapped (no last-write-wins collision); `remove_peer` is unrestricted. -/
inductive PeerReachableFresh : PeerState → Prop
  | empty : PeerReachableFresh PeerState.empty
  | insert (s : PeerState) (ip : SocketAddr) (a : Address) :
      PeerReachableFresh s →
      get_address s ip = none →
      get_peer_ip s a = none →
      PeerReachableFresh (insert_peer s ip a)
  | remove (s : PeerState) (ip : SocketAddr) :
      PeerReachableFresh s → PeerReachableFresh (remove_peer s ip)

theorem insert_peer_preserves (s : PeerState) (ip : SocketAddr) (a : Address)
    (hwf : PeerWF s) (hcons : Consistent s)
    (hip : get_address s ip = none) (ha : get_peer_ip s a = none) :
    Consistent (insert_peer s ip a) ∧ PeerWF (insert_peer s ip a) := by
  have hc : ∀ ip' a', mapFind? s.peer_addresses ip' = some a'
      ↔ mapFind? s.address_peers a' = some ip' := hcons
  have hipm : mapFind? s.peer_addresses ip = none := hip
  have ham : mapFind? s.address_peers a = none := ha
  constructor
  · intro ip' a'
    show mapFind? (mapInsert s.peer_addresses ip a) ip' = some a'
      ↔ mapFind? (mapInsert s.address_peers a ip) a' = some ip'
    by_cases hi : ip' = ip
    · subst hi
      rw [mapFind?_insert_self]
      by_cases hb : a' = a
      · subst hb
        rw [mapFind?_insert_self]
        simp
      · rw [mapFind?_insert_ne _ _ _ _ hb]
        constructor
        · intro h
          cases h
          exact absurd rfl hb
        · intro h
          have h2 := (hc ip' a').mpr h
          rw [hipm] at h2
          cases h2
    · rw [mapFind?_insert_ne _ _ _ _ hi]
      by_cases hb : a' = a
      · subst hb
        rw [mapFind?_insert_self]
        constructor
        · intro h
          have h2 := (hc ip' a').mp h
          rw [ham] at h2
          cases h2
        · intro h
          cases h
          exact absurd rfl hi
      · rw [mapFind?_insert_ne _ _ _ _ hb]
        exact hc ip' a'
  · exact ⟨keysNodup_insert _ _ _ hwf.1, keysNodup_insert _ _ _ hwf.2⟩

theorem remove_peer_preserves (s : PeerState) (ip : SocketAddr)
    (hwf : PeerWF s) (hcons : Consistent s) :
    Consistent (remove_peer s ip) ∧ PeerWF (remove_peer s ip) := by
  have hc : ∀ ip' a', mapFind? s.peer_addresses ip' = some a'
      ↔ mapFind? s.address_peers a' = some ip' := hcons
  unfold remove_peer
  cases hfind : mapFind? s.peer_addresses ip with
  | none => exact ⟨hcons, hwf⟩
  | some a0 =>
      have hrev : mapFind? s.address_peers a0 = some ip := (hc ip a0).mp hfind
      constructor
      · intro ip' a'
        show mapFind? (mapErase s.peer_addresses ip) ip' = some a'
          ↔ mapFind? (mapErase s.address_peers a0) a' = some ip'
        by_cases hi : ip' = ip
        · subst hi
          rw [mapFind?_erase_self _ _ hwf.1]
          by_cases hb : a' = a0
          · subst hb
            rw [mapFind?_erase_self _ _ hwf.2]
            simp
          · rw [mapFind?_erase_ne _ _ _ hb]
            constructor
            · intro h
              cases h
            · intro h
              have h2 := (hc ip' a').mpr h
              rw [hfind] at h2
              cases h2
              exact absurd rfl hb
        · rw [mapFind?_erase_ne _ _ _ hi]
          by_cases hb : a' = a0
          · subst hb
            rw [mapFind?_erase_self _ _ hwf.2]
            constructor
            · intro h
              have h2 := (hc ip' a').mp h
              rw [hrev] at h2
              cases h2
              exact absurd rfl hi
            · intro h
              cases h
          · rw [mapFind?_erase_ne _ _ _ hb]
            exact hc ip' a'
      · exact ⟨keysNodup_erase _ _ hwf.1, keysNodup_erase _ _ hwf.2⟩

/-- Claim C4, counterexample: The unrestricted bidirectional-consistency
claim fails: inserting peer IP `0` first for address `0` and then for
address `1` is a reachable sequence that leaves the stale reverse entry
`address_peers[0] = 0` while `peer_addresses[0] = 1`. -/
theorem peer_consistency_counterexample :
    PeerReachable (insert_peer (insert_peer PeerState.empty 0 0) 0 1)
    ∧ ¬ Consistent (insert_peer (insert_peer PeerState.empty 0 0) 0 1) := by
  constructor
  · exact PeerReachable.insert _ 0 1 (PeerReachable.insert _ 0 0 PeerReachable.empty)
  · intro h
    have h00 := (h 0 0).mpr (by decide)
    exact absurd h00 (by decide)

/-- Claim C4, amended: In every state reachable from the empty peer maps by
`remove_peer` operations and by `insert_peer` operations whose peer IP and
address are both currently unmapped, the two peer maps are mutually
consistent (and satisfy the `HashMap` key-uniqueness invariant): each such
`insert_peer` and every `remove_peer` preserves the bidirectional
invariant.  Unrestricted `insert_peer` does not: a colliding insert
silently overwrites one direction only (see the counterexample). -/
theorem peer_consistency_of_fresh (s : PeerState) (h : PeerReachableFresh s) :
    Consistent s ∧ PeerWF s := by
  induction h with
  | empty =>
      constructor
      · intro ip a
        simp [Consistent, PeerState.empty, get_address, get_peer_ip, mapFind?]
      · exact ⟨List.nodup_nil, List.nodup_nil⟩
  | insert s ip a _ hip ha ih =>
      exact insert_peer_preserves s ip a ih.2 ih.1 hip ha
  | remove s ip _ ih =>
      exact remove_peer_preserves s ip ih.2 ih.1

/-- Witness for the amended claim C4: the state after the fresh inserts
`insert_peer(0, 1)` and `insert_peer(2, 3)` is consistent. -/
theorem peer_consistency_of_fresh_witness :
    Consistent (insert_peer (insert_peer PeerState.empty 0 1) 2 3)
    ∧ PeerWF (insert_peer (insert_peer PeerState.empty 0 1) 2 3) :=
  peer_consistency_of_fresh _
    (PeerReachableFresh.insert _ 2 3
      (PeerReachableFresh.insert _ 0 1 PeerReachableFresh.empty (by rfl) (by rfl))
      (by rfl) (by rfl))

/-- Claim C8: On any peer-map state satisfying the `HashMap` key-uniqueness
invariant: immediately after `insert_peer(ip, addr)`, both
`get_peer_ip(addr) = Some(ip)` and `get_address(ip) = Some(addr)` hold;
and immediately after a subsequent `remove_peer(ip)`, both lookups return
nothing. -/
theorem insert_then_remove_peer_spec (s : PeerState) (ip : SocketAddr)
    (a : Address) (hwf : PeerWF s) :
    get_peer_ip (insert_peer s ip a) a = some ip
    ∧ get_address (insert_peer s ip a) ip = some a
    ∧ get_peer_ip (remove_peer (insert_peer s ip a) ip) a = none
    ∧ get_address (remove_peer (insert_peer s ip a) ip) ip = none := by
  have hfwd : mapFind? (insert_peer s ip a).peer_addresses ip = some a :=
    mapFind?_insert_self _ _ _
  have hrev : mapFind? (insert_peer s ip a).address_peers a = some ip :=
    mapFind?_insert_self _ _ _
  refine ⟨hrev, hfwd, ?_, ?_⟩
  · simp only [remove_peer, hfwd, get_peer_ip]
    exact mapFind?_erase_self _ _ (keysNodup_insert _ _ _ hwf.2)
  · simp only [remove_peer, hfwd, get_address]
    exact mapFind?_erase_self _ _ (keysNodup_insert _ _ _ hwf.1)

/-- Witness for claim C8 starting from the empty (well-formed) peer maps
with `ip = 4`, `addr = 9`. -/
theorem insert_then_remove_peer_spec_witness :
    get_peer_ip (insert_peer PeerState.empty 4 9) 9 = some 4
    ∧ get_address (insert_peer PeerState.empty 4 9) 4 = some 9
    ∧ get_peer_ip (remove_peer (insert_peer PeerState.empty 4 9) 4) 9 = none
    ∧ get_address (remove_peer (insert_peer PeerState.empty 4 9) 4) 4 = none :=
  insert_then_remove_peer_spec PeerState.empty 4 9
    ⟨List.nodup_nil, List.nodup_nil⟩

/-- Claim C9, counterexample: `set_status` is an unconditional store, so
`ShuttingDown` is not terminal against further `set_status` calls: from
the freshly constructed node, `set_status(ShuttingDown)` makes `status()`
read `ShuttingDown`, but a subsequent `set_status(Idle)` — a reachable
Lifecycle Controller operation — makes `status()` read `Idle`. -/
theorem shutdown_not_terminal_counterexample :
    (set_status NodeState.new Status.ShuttingDown).status =
        some Status.ShuttingDown
    ∧ NodeReachable (set_status (set_status NodeState.new Status.ShuttingDown)
        Status.Idle)
    ∧ (set_status (set_status NodeState.new Status.ShuttingDown)
        Status.Idle).status = some Status.Idle := by
  refine ⟨rfl, ?_, rfl⟩
  exact NodeReachable.step _ Status.Idle
    (NodeReachable.step _ Status.ShuttingDown NodeReachable.new)

/-- Claim C9, amended: `set_status` stores exactly its argument's
discriminant: after `set_status(s)` the status reads `s`, and `shut_down`
leaves the status `ShuttingDown`.  Hence once the status is
`ShuttingDown`, every `status()` read returns `ShuttingDown` until a
`set_status` call with a different argument — terminality of
`ShuttingDown` is a contract on callers, not enforced by `set_status`. -/
theorem set_status_stores_argument (n : NodeState) (s : Status) :
    (set_status n s).status = some s
    ∧ (shut_down n).status = some Status.ShuttingDown := by
  constructor
  · cases s <;> rfl
  · rfl

/-- Claim C10: Every node state reachable from `Node::new` by `set_status`
calls has a status byte in `{0, 1, 2, 3}`, so the decoder of `status()`
never reaches its `unreachable!("Invalid status code")` arm: `status()`
is total on reachable states. -/
theorem status_total_on_reachable (n : NodeState) (h : NodeReachable n) :
    n.statusByte ≤ 3 ∧ (NodeState.status n).isSome = true := by
  induction h with
  | new => exact ⟨by decide, by decide⟩
  | step n s _ _ =>
      cases s <;> exact ⟨by simp [set_status, Status.toByte], rfl⟩

/-- Witness for claim C10 at the freshly constructed node. -/
theorem status_total_on_reachable_witness :
    NodeState.new.statusByte ≤ 3
    ∧ (NodeState.status NodeState.new).isSome = true :=
  status_total_on_reachable NodeState.new NodeReachable.new

end SnarkOS
